import Mathlib

/-!
Verification of the SceneScout repository: a shallow embedding of the
scene-segmentation engine and the UI/service helpers, with theorems about
the segmentation invariants, the fixed/adaptive boundary algorithms, the
progress reporting, the error handling, the scene-selection toggle and the
retry wrapper.

The segmentation engine (`processVideoScenes` in `services/videoUtils.ts`)
is not among the provided source files; its embedding below is modelled
from the specification (each such definition is marked `Modelled from the
spec:`).  The App state handlers and the retry wrapper are translated from
`App.tsx` and `services/geminiService.ts` directly.

Timestamps, durations, diff scores, progress percentages and delays are
rationals; ids and frame indices are integers / naturals.
-/

namespace Scout

/-- Modelled from the spec: a decoded frame, reduced to the coarse grid of
luma/RGB cells the DiffScorer operates on (resolution-independent). -/
structure Frame where
  cells : List ℚ
deriving DecidableEq

/-- A fatal decode failure; carries the timestamp for diagnosis (spec section 7). -/
structure DecodeError where
  timestamp : ℚ
deriving DecidableEq

/-- A per-scene thumbnail failure; non-fatal (spec section 7). -/
structure ThumbnailError where
  timestamp : ℚ
deriving DecidableEq

/-- Modelled from the spec: FrameSource plus ThumbnailExtractor backend —
duration, decode at a timestamp (fallible), thumbnail at a timestamp (fallible). -/
structure Video where
  duration : ℚ
  frameAt : ℚ → Except DecodeError Frame
  thumbAt : ℚ → Except ThumbnailError String

/-- One entry of the diff timeline, as in `types.ts` (`FrameDiff`). -/
structure FrameDiff where
  timestamp : ℚ
  diffScore : ℚ
  frameIndex : ℕ
deriving DecidableEq

/-- A scene, as in `types.ts` (`Scene`), restricted to the fields the
segmentation engine produces. -/
structure Scene where
  id : ℤ
  startTime : ℚ
  endTime : ℚ
  thumbnailDataUrl : String
deriving DecidableEq

/-- The result of one segmentation call (spec section 3). -/
structure SegmentationResult where
  scenes : List Scene
  diffs : List FrameDiff
deriving DecidableEq

/-- Modelled from the spec: the boundary-decision mode — adaptive cut
detection or fixed-duration slicing.  In `App.tsx` the choice is encoded by
`fixedSegmentDuration` (0 selects the adaptive "Visual Cut AI" mode). -/
inductive Mode where
  | adaptive : Mode
  | fixed (durationSeconds : ℚ) : Mode
deriving DecidableEq

/-- Modelled from the spec: the named configuration constants of the engine
(spec section 9 asks for named configuration values). -/
structure SegConfig where
  samplingInterval : ℚ
  minSceneLen : ℚ
  multiplier : ℚ
  margin : ℚ
  minRemainder : ℚ
deriving DecidableEq

/-- Modelled from the spec: number of sampling points of the scan — the
cadence points `0, s, 2s, ...` up to `duration` inclusively. -/
def sampleCount (d s : ℚ) : ℕ :=
  (⌈d / s⌉).toNat + 1

/-- Modelled from the spec: the sampling timestamps `0, s, 2s, ...`,
clamped so the scan ends exactly at `duration`. -/
def sampleTimes (d s : ℚ) : List ℚ :=
  (List.range (sampleCount d s)).map (fun (i : ℕ) => min ((i : ℚ) * s) d)

/-- Modelled from the spec: per-cell absolute differences of the
DiffScorer's coarse grid. -/
def cellDiffs (prev curr : Frame) : List ℚ :=
  (prev.cells.zip curr.cells).map (fun p => |p.1 - p.2|)

/-- Modelled from the spec: the DiffScorer — normalized mean absolute
difference across grid cells, scaled to the fixed 0–100 range. -/
def score (prev curr : Frame) : ℚ :=
  if (cellDiffs prev curr).length = 0 then 0
  else (cellDiffs prev curr).sum / ((cellDiffs prev curr).length : ℚ) * (100 / 255)

/-- Modelled from the spec: the sequential scan of the FrameSource at the
sampling timestamps; a decode failure aborts the whole scan. -/
def scanFrames (v : Video) : List ℚ → Except DecodeError (List (ℚ × Frame))
  | [] => .ok []
  | t :: ts =>
    match v.frameAt t with
    | .error e => .error e
    | .ok f =>
      match scanFrames v ts with
      | .error e => .error e
      | .ok tfs => .ok ((t, f) :: tfs)

/-- Modelled from the spec: the diff loop — only the immediately previous
sample is retained; each later sample is scored against it. -/
def diffLoop (prev : Frame) (i : ℕ) : List (ℚ × Frame) → List FrameDiff
  | [] => []
  | (t, f) :: rest => ⟨t, score prev f, i⟩ :: diffLoop f (i + 1) rest

/-- Modelled from the spec: the diff timeline — one entry per sampled frame
after the first. -/
def mkDiffs : List (ℚ × Frame) → List FrameDiff
  | [] => []
  | (_, f0) :: rest => diffLoop f0 1 rest

/-- Modelled from the spec: the CutDetector baseline noise level — the
median of the diff-score distribution. -/
def median (l : List ℚ) : ℚ :=
  (List.insertionSort (· ≤ ·) l).getD (l.length / 2) 0

/-- Modelled from the spec: candidate boundaries — samples whose diff score
exceeds `baseline * multiplier + margin`. -/
def candidates (cfg : SegConfig) (diffs : List FrameDiff) : List ℚ :=
  let baseline := median (diffs.map (fun fd => fd.diffScore))
  (diffs.filter
      (fun fd => decide (baseline * cfg.multiplier + cfg.margin < fd.diffScore))).map
    (fun fd => fd.timestamp)

/-- Modelled from the spec: boundary-merging loop — a candidate closer than
the minimum scene length to the last kept boundary is dropped (the cluster
is represented by its earliest member). -/
def mergeGo (minLen last : ℚ) : List ℚ → List ℚ
  | [] => []
  | u :: rest =>
    if u - last < minLen then mergeGo minLen last rest
    else u :: mergeGo minLen u rest

/-- Modelled from the spec: boundary merging — candidates closer together
than the minimum scene length collapse to the earlier timestamp. -/
def mergeClose (minLen : ℚ) : List ℚ → List ℚ
  | [] => []
  | t :: rest => t :: mergeGo minLen t rest

/-- Modelled from the spec: the CutDetector output — merged candidate
boundaries, kept only where they cut the open interval `(0, duration)` so
that every resulting window has positive length (spec section 3). -/
def adaptiveBoundaries (cfg : SegConfig) (d : ℚ) (diffs : List FrameDiff) : List ℚ :=
  (mergeClose cfg.minSceneLen (candidates cfg diffs)).filter
    (fun t => decide (0 < t) && decide (t < d))

/-- Modelled from the spec: interior boundaries of the FixedSlicer —
multiples of `D` below the duration, with a final remainder smaller than
the minimum threshold merged into the previous segment. -/
def fixedInterior (D L minRem : ℚ) : List ℚ :=
  let k : ℕ := (⌊L / D⌋).toNat
  let r : ℚ := L - (k : ℚ) * D
  let m : ℕ := if r < minRem then k - 1 else k
  (List.range m).map (fun (i : ℕ) => ((i : ℚ) + 1) * D)

/-- Modelled from the spec: conversion of interior boundaries into the
contiguous sequence of half-open scene windows covering `[a, d)`. -/
def windows (a : ℚ) : List ℚ → ℚ → List (ℚ × ℚ)
  | [], d => [(a, d)]
  | b :: bs, d => (a, b) :: windows b bs d

/-- Modelled from the spec: all the FixedSlicer's windows. -/
def fixedWindows (D L minRem : ℚ) : List (ℚ × ℚ) :=
  windows 0 (fixedInterior D L minRem) L

/-- Modelled from the spec: all the CutDetector's windows, including the
coverage fallback (no boundaries yields the single whole-video window). -/
def adaptiveWindows (cfg : SegConfig) (d : ℚ) (diffs : List FrameDiff) : List (ℚ × ℚ) :=
  windows 0 (adaptiveBoundaries cfg d diffs) d

/-- Modelled from the spec: the placeholder used when a thumbnail decode
fails (the scene is kept, with a null/placeholder thumbnail). -/
def placeholderThumb : String := ""

/-- Modelled from the spec: the ThumbnailExtractor — decode the midpoint of
the window; on failure degrade to the placeholder. -/
def sceneThumb (v : Video) (a b : ℚ) : String :=
  match v.thumbAt ((a + b) / 2) with
  | .ok u => u
  | .error _ => placeholderThumb

/-- Modelled from the spec: assemble scenes from windows — sequential ids,
window times, one thumbnail each. -/
def mkScenes (v : Video) : ℤ → List (ℚ × ℚ) → List Scene
  | _, [] => []
  | i, (a, b) :: ws => ⟨i, a, b, sceneThumb v a b⟩ :: mkScenes v (i + 1) ws

/-- Modelled from the spec: the SceneSegmenter orchestration — scan, build
the diff timeline, decide boundaries by mode, extract thumbnails, assemble.
A scan failure aborts the whole call with no partial result. -/
def segment (v : Video) (mode : Mode) (cfg : SegConfig) :
    Except DecodeError SegmentationResult :=
  let ts := sampleTimes v.duration cfg.samplingInterval
  match scanFrames v ts with
  | .error e => .error e
  | .ok tfs =>
    let diffs := mkDiffs tfs
    let ws :=
      match mode with
      | .adaptive => adaptiveWindows cfg v.duration diffs
      | .fixed D => fixedWindows D v.duration cfg.minRemainder
    .ok ⟨mkScenes v 1 ws, diffs⟩

/-- Modelled from the spec: the per-sample progress values handed to
`onProgress` — after sample `i` of `n` the callback receives
`(i+1)/n * 100`; a decode failure stops the sequence at once. -/
def scanProgress (v : Video) (n : ℕ) : ℕ → List ℚ → List ℚ
  | _, [] => []
  | i, t :: ts =>
    match v.frameAt t with
    | .error _ => []
    | .ok _ => (((i : ℚ) + 1) / (n : ℚ) * 100) :: scanProgress v n (i + 1) ts

/-- Modelled from the spec: the whole progress-callback sequence of one
segmentation call. -/
def segmentProgress (v : Video) (cfg : SegConfig) : List ℚ :=
  let ts := sampleTimes v.duration cfg.samplingInterval
  scanProgress v ts.length 0 ts

/-- Modelled from the spec: the length of the successfully decoded prefix
of the scan. -/
def okLen (v : Video) : List ℚ → ℕ
  | [] => 0
  | t :: ts =>
    match v.frameAt t with
    | .error _ => 0
    | .ok _ => okLen v ts + 1

/-- Modelled from the spec: the per-mode side conditions under which the
engine is invoked (a fixed segment length is positive). -/
def modeValid : Mode → Prop
  | .adaptive => True
  | .fixed D => 0 < D

/-- Status field of `AnalysisProgress` in `types.ts`. -/
inductive ProgressStatus where
  | idle
  | processingVideo
  | analyzingScenes
  | complete
  | error
deriving DecidableEq

/-- The `AnalysisProgress` record of `types.ts`. -/
structure AnalysisProgress where
  status : ProgressStatus
  progress : ℚ
  message : Option String
deriving DecidableEq

/-- The slice of the `App.tsx` component state the verified handlers touch. -/
structure AppState where
  scenes : List Scene
  frameDiffs : List FrameDiff
  progress : AnalysisProgress
  selectedSceneIds : List ℤ
deriving DecidableEq

/-- State update performed by `handleDurationSelect` in `App.tsx` once the
`processVideoScenes` promise settles: on success it stores the scenes, the
diffs and a complete progress; on failure it only records the error
progress (the scenes and diffs state setters are never called). -/
def handleDurationSelect (st : AppState)
    (result : Except DecodeError SegmentationResult) : AppState :=
  match result with
  | .ok r =>
    { st with
      scenes := r.scenes
      frameDiffs := r.diffs
      progress := ⟨.complete, 100, none⟩ }
  | .error _ =>
    { st with progress := ⟨.error, 0, some "Failed to process video."⟩ }

/-- The selection-toggle updater of `App.tsx` (`handleToggleSelect`): remove
an already selected id, replace the selection when two ids are already
selected, otherwise append and sort ascending. -/
def handleToggleSelect (id : ℤ) (prev : List ℤ) : List ℤ :=
  if id ∈ prev then prev.filter (fun sid => decide (sid ≠ id))
  else if 2 ≤ prev.length then [id]
  else List.insertionSort (· ≤ ·) (prev ++ [id])

/-- The invariant of the selected-scene-ids state in `App.tsx`. -/
def toggleInv (l : List ℤ) : Prop :=
  l.length ≤ 2 ∧ l.Nodup ∧ l.Sorted (· ≤ ·)

/-- The observable shape of a thrown JS error in `geminiService.ts`:
`message`, optional numeric `status`, and `name`. -/
structure ApiError where
  message : String
  status : Option ℤ
  name : String
deriving DecidableEq

/-- Whether the character list `pat` occurs at the start of `l`. -/
def charsStart : List Char → List Char → Bool
  | [], _ => true
  | _ :: _, [] => false
  | p :: ps, c :: cs => p == c && charsStart ps cs

/-- Whether the character list `pat` occurs anywhere inside `l`. -/
def charsContain (pat : List Char) : List Char → Bool
  | [] => pat.isEmpty
  | c :: cs => charsStart pat (c :: cs) || charsContain pat cs

/-- JS `String.prototype.includes`, as used by the error classifiers. -/
def strIncludes (s pat : String) : Bool :=
  charsContain pat.data s.data

/-- The quota-error test of `withRetry` in `geminiService.ts`. -/
def isQuotaError (e : ApiError) : Bool :=
  strIncludes e.message "429" || e.status == some 429 ||
    strIncludes e.message "RESOURCE_EXHAUSTED"

/-- The fetch/network-error test of `withRetry` in `geminiService.ts`. -/
def isFetchError (e : ApiError) : Bool :=
  strIncludes e.message "fetch" || e.name == "TypeError" ||
    strIncludes e.message "Network"

/-- The `error?.status >= 500` test of `withRetry` (false when `status` is
absent, as in JS). -/
def isServerError (e : ApiError) : Bool :=
  match e.status with
  | some s => decide (500 ≤ s)
  | none => false

/-- The retry condition of `withRetry`: quota, server (5xx) or
fetch/network errors are retryable. -/
def retryable (e : ApiError) : Bool :=
  isQuotaError e || isServerError e || isFetchError e

/-- The `withRetry` wrapper of `geminiService.ts`.  The attempts of the
wrapped thunk are modelled as a function from attempt index to outcome.
The wrapper returns the final outcome together with the list of delays
waited before each retry (so the number of extra attempts equals the
length of that list). -/
def withRetry {T : Type} (fn : ℕ → Except ApiError T) :
    ℕ → ℚ → ℕ → Except ApiError T × List ℚ
  | 0, _, attempt =>
    match fn attempt with
    | .ok v => (.ok v, [])
    | .error e => (.error e, [])
  | r + 1, delay, attempt =>
    match fn attempt with
    | .ok v => (.ok v, [])
    | .error e =>
      if retryable e then
        let next := withRetry fn r (delay * 2) (attempt + 1)
        (next.1, delay :: next.2)
      else (.error e, [])

/-- The default `retries = 3`, `delay = 2000` invocation of `withRetry`. -/
def withRetryDefault {T : Type} (fn : ℕ → Except ApiError T) :
    Except ApiError T × List ℚ :=
  withRetry fn 3 2000 0

/-- A concrete 4-second video whose every decode yields the same frame
(zero frame-to-frame change) — used to instantiate the theorems. -/
def constVideo : Video :=
  ⟨4, fun _ => .ok ⟨[0]⟩, fun _ => .ok "thumb"⟩

/-- A concrete video whose every decode fails — used to instantiate the
error-path theorems. -/
def badVideo : Video :=
  ⟨10, fun t => .error ⟨t⟩, fun _ => .ok "x"⟩

/-- A concrete video whose thumbnail decode fails only at timestamp 1 —
used to instantiate the thumbnail-isolation theorems. -/
def flakyVideo : Video :=
  ⟨4, fun _ => .ok ⟨[0]⟩, fun t => if t = 1 then .error ⟨t⟩ else .ok "ok"⟩

/-- A concrete engine configuration used to instantiate the theorems. -/
def testCfg : SegConfig :=
  ⟨2, 1, 3, 5, 1 / 10⟩

/-- A concrete App state used to instantiate the error-path theorems. -/
def st0 : AppState :=
  ⟨[⟨9, 1, 2, "t"⟩], [], ⟨.idle, 0, none⟩, []⟩

/-- The segmentation result of `constVideo` in adaptive mode. -/
def constRes : SegmentationResult :=
  (segment constVideo Mode.adaptive testCfg).toOption.getD ⟨[], []⟩

lemma zip_self_eq {α : Type} : ∀ l : List α, l.zip l = l.map (fun a => (a, a)) := by
  intro l
  induction l with
  | nil => rfl
  | cons a t ih => simp [ih]

lemma zip_getElem?_eq {α β : Type} :
    ∀ (l₁ : List α) (l₂ : List β) (i : ℕ),
      (l₁.zip l₂)[i]? = l₁[i]?.bind (fun a => l₂[i]?.map (fun b => (a, b))) := by
  intro l₁
  induction l₁ with
  | nil => intro l₂ i; simp
  | cons a t ih =>
    intro l₂ i
    cases l₂ with
    | nil => simp
    | cons b t₂ =>
      cases i with
      | zero => simp
      | succ j => simpa using ih t₂ j

lemma windows_ne_nil (a d : ℚ) (bs : List ℚ) : windows a bs d ≠ [] := by
  cases bs <;> simp [windows]

lemma windows_length (a d : ℚ) : ∀ bs : List ℚ, (windows a bs d).length = bs.length + 1 := by
  intro bs
  induction bs generalizing a with
  | nil => rfl
  | cons b t ih => simp [windows, ih]

lemma windows_head_fst (a d : ℚ) (bs : List ℚ) :
    ((windows a bs d).head?).map Prod.fst = some a := by
  cases bs <;> rfl

lemma windows_last_snd (a d : ℚ) :
    ∀ bs : List ℚ, ((windows a bs d).getLast?).map Prod.snd = some d := by
  intro bs
  induction bs generalizing a with
  | nil => rfl
  | cons b t ih =>
    have hne := windows_ne_nil b d t
    rw [windows]
    cases hw : windows b t d with
    | nil => exact absurd hw hne
    | cons w tw =>
      rw [List.getLast?_cons_cons, ← hw]
      exact ih b

lemma windows_chain_contig (a d : ℚ) :
    ∀ bs : List ℚ, (windows a bs d).Chain' (fun p q => p.2 = q.1) := by
  intro bs
  induction bs generalizing a with
  | nil => simp [windows]
  | cons b t ih =>
    rw [windows, List.chain'_cons']
    refine ⟨?_, ih b⟩
    intro y hy
    have hh := windows_head_fst b d t
    cases hw : (windows b t d).head? with
    | none => rw [hw] at hy; exact absurd hy (by simp)
    | some w =>
      rw [hw] at hy hh
      have hyw : w = y := by simpa using hy
      have hwb : w.1 = b := by simpa using hh
      subst hyw
      simpa using hwb.symm

lemma windows_pos (a d : ℚ) :
    ∀ bs : List ℚ, bs.Pairwise (· < ·) → (∀ b ∈ bs, a < b ∧ b < d) → a < d →
      ∀ p ∈ windows a bs d, p.1 < p.2 := by
  intro bs
  induction bs generalizing a with
  | nil =>
    intro _ _ had p hp
    simp only [windows, List.mem_singleton] at hp
    subst hp
    exact had
  | cons b t ih =>
    intro hpw hmem had p hp
    rw [List.pairwise_cons] at hpw
    simp only [windows, List.mem_cons] at hp
    rcases hp with rfl | hp
    · exact (hmem b (by simp)).1
    · refine ih b hpw.2 ?_ (hmem b (by simp)).2 p hp
      intro c hc
      exact ⟨hpw.1 c hc, (hmem c (by simp [hc])).2⟩

lemma windows_chain_fst (a d : ℚ) :
    ∀ bs : List ℚ, bs.Pairwise (· < ·) → (∀ b ∈ bs, a < b) →
      (windows a bs d).Chain' (fun p q => p.1 < q.1) := by
  intro bs
  induction bs generalizing a with
  | nil => simp [windows]
  | cons b t ih =>
    intro hpw hmem
    rw [List.pairwise_cons] at hpw
    rw [windows, List.chain'_cons']
    constructor
    · intro y hy
      have hh := windows_head_fst b d t
      cases hw : (windows b t d).head? with
      | none => rw [hw] at hy; exact absurd hy (by simp)
      | some w =>
        rw [hw] at hy hh
        have hyw : w = y := by simpa using hy
        have hwb : w.1 = b := by simpa using hh
        subst hyw
        rw [hwb]
        exact hmem b (by simp)
    · exact ih b hpw.2 hpw.1

lemma score_nonneg (f g : Frame) : 0 ≤ score f g := by
  unfold score
  split
  · exact le_refl 0
  · apply mul_nonneg
    · apply div_nonneg
      · apply List.sum_nonneg
        intro x hx
        unfold cellDiffs at hx
        simp only [List.mem_map] at hx
        obtain ⟨p, _, rfl⟩ := hx
        exact abs_nonneg _
      · exact Nat.cast_nonneg _
    · norm_num

lemma cellDiffs_self (f : Frame) : cellDiffs f f = f.cells.map (fun _ => (0 : ℚ)) := by
  unfold cellDiffs
  rw [zip_self_eq, List.map_map]
  apply List.map_congr_left
  intro a _
  simp

lemma score_self (f : Frame) : score f f = 0 := by
  unfold score
  rw [cellDiffs_self]
  split
  · rfl
  · rw [List.sum_eq_zero]
    · simp
    · intro x hx
      simp only [List.mem_map] at hx
      obtain ⟨a, _, rfl⟩ := hx
      rfl

lemma scanFrames_ok_fst (v : Video) :
    ∀ {ts : List ℚ} {tfs : List (ℚ × Frame)},
      scanFrames v ts = .ok tfs → tfs.map Prod.fst = ts := by
  intro ts
  induction ts with
  | nil =>
    intro tfs h
    simp only [scanFrames] at h
    cases h
    rfl
  | cons t rest ih =>
    intro tfs h
    simp only [scanFrames] at h
    cases hf : v.frameAt t with
    | error e => rw [hf] at h; cases h
    | ok f =>
      rw [hf] at h
      cases hr : scanFrames v rest with
      | error e => rw [hr] at h; cases h
      | ok tfs' =>
        rw [hr] at h
        cases h
        simp [ih hr]

lemma scanFrames_const (v : Video) (f : Frame) (hf : ∀ t, v.frameAt t = .ok f) :
    ∀ ts : List ℚ, scanFrames v ts = .ok (ts.map (fun t => (t, f))) := by
  intro ts
  induction ts with
  | nil => rfl
  | cons t rest ih => simp [scanFrames, hf t, ih]

lemma diffLoop_timestamps (f : Frame) (i : ℕ) :
    ∀ l : List (ℚ × Frame),
      (diffLoop f i l).map (fun fd => fd.timestamp) = l.map Prod.fst := by
  intro l
  induction l generalizing f i with
  | nil => rfl
  | cons p rest ih =>
    obtain ⟨t, g⟩ := p
    simp [diffLoop, ih]

lemma diffLoop_length (f : Frame) (i : ℕ) :
    ∀ l : List (ℚ × Frame), (diffLoop f i l).length = l.length := by
  intro l
  induction l generalizing f i with
  | nil => rfl
  | cons p rest ih =>
    obtain ⟨t, g⟩ := p
    simp [diffLoop, ih]

lemma diffLoop_score_nonneg (f : Frame) (i : ℕ) :
    ∀ l : List (ℚ × Frame), ∀ fd ∈ diffLoop f i l, 0 ≤ fd.diffScore := by
  intro l
  induction l generalizing f i with
  | nil => intro fd h; cases h
  | cons p rest ih =>
    obtain ⟨t, g⟩ := p
    intro fd h
    simp only [diffLoop, List.mem_cons] at h
    rcases h with rfl | h
    · exact score_nonneg f g
    · exact ih g (i + 1) fd h

lemma diffLoop_const_score (f : Frame) (i : ℕ) :
    ∀ ts : List ℚ, ∀ fd ∈ diffLoop f i (ts.map (fun t => (t, f))), fd.diffScore = 0 := by
  intro ts
  induction ts generalizing i with
  | nil => intro fd h; cases h
  | cons t rest ih =>
    intro fd h
    simp only [List.map_cons, diffLoop, List.mem_cons] at h
    rcases h with rfl | h
    · exact score_self f
    · exact ih (i + 1) fd h

lemma mkDiffs_timestamps (tfs : List (ℚ × Frame)) :
    (mkDiffs tfs).map (fun fd => fd.timestamp) = (tfs.map Prod.fst).tail := by
  cases tfs with
  | nil => rfl
  | cons p rest =>
    obtain ⟨t, f⟩ := p
    simp [mkDiffs, diffLoop_timestamps]

lemma mkDiffs_length (tfs : List (ℚ × Frame)) :
    (mkDiffs tfs).length = tfs.length - 1 := by
  cases tfs with
  | nil => rfl
  | cons p rest =>
    obtain ⟨t, f⟩ := p
    simp [mkDiffs, diffLoop_length]

lemma mkDiffs_score_nonneg (tfs : List (ℚ × Frame)) :
    ∀ fd ∈ mkDiffs tfs, 0 ≤ fd.diffScore := by
  cases tfs with
  | nil => intro fd h; cases h
  | cons p rest =>
    obtain ⟨t, f⟩ := p
    exact diffLoop_score_nonneg f 1 rest

lemma sampleCount_pos (d s : ℚ) : 0 < sampleCount d s := by
  unfold sampleCount
  omega

lemma sampleTimes_length (d s : ℚ) : (sampleTimes d s).length = sampleCount d s := by
  simp [sampleTimes]

lemma sampleTimes_ne_nil (d s : ℚ) : sampleTimes d s ≠ [] := by
  have h := sampleTimes_length d s
  have hp := sampleCount_pos d s
  intro hn
  rw [hn] at h
  simp at h
  omega

lemma sampleTimes_chain (d s : ℚ) (_hd : 0 < d) (hs : 0 < s) :
    (sampleTimes d s).Chain' (· < ·) := by
  unfold sampleTimes sampleCount
  rw [List.chain'_map, List.chain'_range_succ]
  intro m hm
  have h1 : (m : ℤ) < ⌈d / s⌉ := by
    rwa [Int.lt_toNat] at hm
  have h2 : (m : ℚ) < d / s := by exact_mod_cast Int.lt_ceil.mp h1
  have hmd : (m : ℚ) * s < d := (lt_div_iff₀ hs).mp h2
  rw [min_eq_left hmd.le]
  apply lt_min
  · have : (m : ℚ) < (m.succ : ℚ) := by push_cast; linarith
    exact mul_lt_mul_of_pos_right this hs
  · exact hmd

lemma sampleTimes_pairwise (d s : ℚ) (hd : 0 < d) (hs : 0 < s) :
    (sampleTimes d s).Pairwise (· < ·) :=
  List.chain'_iff_pairwise.mp (sampleTimes_chain d s hd hs)

lemma mergeGo_sublist (minLen last : ℚ) :
    ∀ l : List ℚ, List.Sublist (mergeGo minLen last l) l := by
  intro l
  induction l generalizing last with
  | nil => exact List.Sublist.refl []
  | cons u rest ih =>
    rw [mergeGo]
    split
    · exact (ih last).cons u
    · exact (ih u).cons₂ u

lemma mergeClose_sublist (minLen : ℚ) :
    ∀ l : List ℚ, List.Sublist (mergeClose minLen l) l := by
  intro l
  cases l with
  | nil => exact List.Sublist.refl []
  | cons t rest => exact (mergeGo_sublist minLen t rest).cons₂ t

lemma mergeGo_ge (minLen last : ℚ) (hm : 0 ≤ minLen) :
    ∀ l : List ℚ, ∀ x ∈ mergeGo minLen last l, last + minLen ≤ x := by
  intro l
  induction l generalizing last with
  | nil => intro x h; cases h
  | cons u rest ih =>
    intro x h
    rw [mergeGo] at h
    split at h
    · exact ih last x h
    · rename_i hkeep
      rcases List.mem_cons.mp h with rfl | h
      · linarith [not_lt.mp hkeep]
      · have h1 : u + minLen ≤ x := ih u x h
        have h2 : last + minLen ≤ u := by linarith [not_lt.mp hkeep]
        linarith

lemma mergeGo_pairwise (minLen last : ℚ) (hm : 0 ≤ minLen) :
    ∀ l : List ℚ, (mergeGo minLen last l).Pairwise (fun a b => minLen ≤ b - a) := by
  intro l
  induction l generalizing last with
  | nil => exact List.Pairwise.nil
  | cons u rest ih =>
    rw [mergeGo]
    split
    · exact ih last
    · rw [List.pairwise_cons]
      refine ⟨?_, ih u⟩
      intro x hx
      have := mergeGo_ge minLen u hm rest x hx
      linarith

lemma mergeClose_pairwise (minLen : ℚ) (hm : 0 ≤ minLen) :
    ∀ l : List ℚ, (mergeClose minLen l).Pairwise (fun a b => minLen ≤ b - a) := by
  intro l
  cases l with
  | nil => exact List.Pairwise.nil
  | cons t rest =>
    rw [mergeClose, List.pairwise_cons]
    refine ⟨?_, mergeGo_pairwise minLen t hm rest⟩
    intro x hx
    have := mergeGo_ge minLen t hm rest x hx
    linarith

lemma mergeClose_head (minLen t : ℚ) (rest : List ℚ) :
    (mergeClose minLen (t :: rest)).head? = some t := rfl

lemma median_of_all_zero (l : List ℚ) (h : ∀ x ∈ l, x = 0) : median l = 0 := by
  unfold median
  rw [List.getD_eq_getElem?_getD]
  cases hg : (List.insertionSort (· ≤ ·) l)[l.length / 2]? with
  | none => rfl
  | some x =>
    have hx : x ∈ List.insertionSort (· ≤ ·) l := by
      obtain ⟨hlt, he⟩ := List.getElem?_eq_some.mp hg
      exact he ▸ List.getElem_mem hlt
    have hx2 : x ∈ l := (List.perm_insertionSort (· ≤ ·) l).mem_iff.mp hx
    simp [h x hx2]

lemma fixedInterior_pairwise (D L minRem : ℚ) (hD : 0 < D) :
    (fixedInterior D L minRem).Pairwise (· < ·) := by
  unfold fixedInterior
  rw [List.pairwise_map]
  apply List.Pairwise.imp ?_ (List.pairwise_lt_range _)
  intro a b hab
  have : (a : ℚ) < (b : ℚ) := by exact_mod_cast hab
  nlinarith

lemma fixedInterior_mem (D L minRem : ℚ) (hD : 0 < D) (hmr : 0 < minRem)
    (hL : 0 < L) :
    ∀ b ∈ fixedInterior D L minRem, 0 < b ∧ b < L := by
  intro b hb
  unfold fixedInterior at hb
  rw [List.mem_map] at hb
  obtain ⟨i, hi, rfl⟩ := hb
  rw [List.mem_range] at hi
  constructor
  · positivity
  · set k : ℕ := (⌊L / D⌋).toNat with hk
    have hkQ : (k : ℚ) * D ≤ L := by
      have h0 : (0 : ℤ) ≤ ⌊L / D⌋ := Int.floor_nonneg.mpr (by positivity)
      have h1 : (k : ℚ) = ((⌊L / D⌋ : ℤ) : ℚ) := by
        rw [hk]
        exact_mod_cast Int.toNat_of_nonneg h0
      have h2 : ((⌊L / D⌋ : ℤ) : ℚ) ≤ L / D := Int.floor_le _
      rw [h1]
      calc ((⌊L / D⌋ : ℤ) : ℚ) * D ≤ (L / D) * D := by nlinarith
        _ = L := div_mul_cancel₀ L (ne_of_gt hD)
    by_cases hrem : L - (k : ℚ) * D < minRem
    · have hm : i < k - 1 := by
        simpa [fixedInterior, hrem] using hi
      have hik : i + 2 ≤ k := by omega
      have hikQ : ((i : ℚ) + 1) ≤ (k : ℚ) - 1 := by
        have : ((i : ℚ) + 2) ≤ (k : ℚ) := by exact_mod_cast hik
        linarith
      calc ((i : ℚ) + 1) * D ≤ ((k : ℚ) - 1) * D := by nlinarith
        _ = (k : ℚ) * D - D := by ring
        _ ≤ L - D := by linarith
        _ < L := by linarith
    · have hm : i < k := by
        simpa [fixedInterior, hrem] using hi
      have hikQ : ((i : ℚ) + 1) ≤ (k : ℚ) := by
        exact_mod_cast Nat.succ_le_of_lt hm
      have hkD : (k : ℚ) * D ≤ L - minRem := by linarith [not_lt.mp hrem]
      calc ((i : ℚ) + 1) * D ≤ (k : ℚ) * D := by nlinarith
        _ ≤ L - minRem := hkD
        _ < L := by linarith

lemma mkScenes_times (v : Video) :
    ∀ (ws : List (ℚ × ℚ)) (i : ℤ),
      (mkScenes v i ws).map (fun sc => (sc.startTime, sc.endTime)) = ws := by
  intro ws
  induction ws with
  | nil => intro i; rfl
  | cons w rest ih =>
    intro i
    obtain ⟨a, b⟩ := w
    simp [mkScenes, ih]

lemma mkScenes_length (v : Video) :
    ∀ (ws : List (ℚ × ℚ)) (i : ℤ), (mkScenes v i ws).length = ws.length := by
  intro ws
  induction ws with
  | nil => intro i; rfl
  | cons w rest ih =>
    intro i
    obtain ⟨a, b⟩ := w
    simp [mkScenes, ih]

lemma mkScenes_getElem? (v : Video) :
    ∀ (ws : List (ℚ × ℚ)) (i : ℤ) (j : ℕ),
      (mkScenes v i ws)[j]? =
        ws[j]?.map (fun w => ⟨i + j, w.1, w.2, sceneThumb v w.1 w.2⟩) := by
  intro ws
  induction ws with
  | nil => intro i j; simp [mkScenes]
  | cons w rest ih =>
    intro i j
    obtain ⟨a, b⟩ := w
    cases j with
    | zero => simp [mkScenes]
    | succ j0 =>
      rw [mkScenes]
      simp only [List.getElem?_cons_succ]
      rw [ih (i + 1) j0]
      congr 1
      funext w
      congr 1
      push_cast
      ring

lemma okLen_le (v : Video) : ∀ ts : List ℚ, okLen v ts ≤ ts.length := by
  intro ts
  induction ts with
  | nil => exact le_refl 0
  | cons t rest ih =>
    rw [okLen]
    cases v.frameAt t with
    | error e => simp
    | ok f => simpa using ih

lemma okLen_of_ok (v : Video) :
    ∀ {ts : List ℚ} {tfs : List (ℚ × Frame)},
      scanFrames v ts = .ok tfs → okLen v ts = ts.length := by
  intro ts
  induction ts with
  | nil => intro tfs _; rfl
  | cons t rest ih =>
    intro tfs h
    simp only [scanFrames] at h
    rw [okLen]
    cases hf : v.frameAt t with
    | error e => rw [hf] at h; cases h
    | ok f =>
      rw [hf] at h
      cases hr : scanFrames v rest with
      | error e => rw [hr] at h; cases h
      | ok tfs' => simp [ih hr]

lemma okLen_of_error (v : Video) :
    ∀ {ts : List ℚ} {e : DecodeError},
      scanFrames v ts = .error e → okLen v ts < ts.length := by
  intro ts
  induction ts with
  | nil => intro e h; simp only [scanFrames] at h; cases h
  | cons t rest ih =>
    intro e h
    simp only [scanFrames] at h
    rw [okLen]
    cases hf : v.frameAt t with
    | error e0 => simp
    | ok f =>
      rw [hf] at h
      cases hr : scanFrames v rest with
      | error e0 =>
        rw [hr] at h
        have := ih hr
        simp only [List.length_cons]
        omega
      | ok tfs' => rw [hr] at h; cases h

lemma scanProgress_eq (v : Video) (n : ℕ) :
    ∀ (ts : List ℚ) (i : ℕ),
      scanProgress v n i ts =
        (List.range (okLen v ts)).map
          (fun (j : ℕ) => ((i : ℚ) + (j : ℚ) + 1) / (n : ℚ) * 100) := by
  intro ts
  induction ts with
  | nil => intro i; rfl
  | cons t rest ih =>
    intro i
    rw [scanProgress, okLen]
    cases hf : v.frameAt t with
    | error e => rfl
    | ok f =>
      rw [ih (i + 1), List.range_succ_eq_map, List.map_cons, List.map_map]
      refine congrArg₂ List.cons ?_ ?_
      · push_cast
        ring
      · apply List.map_congr_left
        intro j _
        simp only [Function.comp_apply]
        push_cast
        ring

lemma withRetry_of_ok {T : Type} (fn : ℕ → Except ApiError T)
    (retries : ℕ) (delay : ℚ) (attempt : ℕ) (v : T)
    (hf : fn attempt = .ok v) :
    withRetry fn retries delay attempt = (.ok v, []) := by
  cases retries <;> rw [withRetry, hf]

lemma withRetry_zero_error {T : Type} (fn : ℕ → Except ApiError T)
    (delay : ℚ) (attempt : ℕ) (e : ApiError)
    (hf : fn attempt = .error e) :
    withRetry fn 0 delay attempt = (.error e, []) := by
  rw [withRetry, hf]

lemma withRetry_succ_error_true {T : Type} (fn : ℕ → Except ApiError T)
    (r : ℕ) (delay : ℚ) (attempt : ℕ) (e : ApiError)
    (hf : fn attempt = .error e) (hre : retryable e = true) :
    withRetry fn (r + 1) delay attempt =
      ((withRetry fn r (delay * 2) (attempt + 1)).1,
        delay :: (withRetry fn r (delay * 2) (attempt + 1)).2) := by
  rw [withRetry, hf]
  simp [hre]

lemma withRetry_succ_error_false {T : Type} (fn : ℕ → Except ApiError T)
    (r : ℕ) (delay : ℚ) (attempt : ℕ) (e : ApiError)
    (hf : fn attempt = .error e) (hre : retryable e = false) :
    withRetry fn (r + 1) delay attempt = (.error e, []) := by
  rw [withRetry, hf]
  simp [hre]

lemma withRetry_delays {T : Type} (fn : ℕ → Except ApiError T) :
    ∀ (retries : ℕ) (delay : ℚ) (attempt : ℕ),
      (withRetry fn retries delay attempt).2 =
        (List.range (withRetry fn retries delay attempt).2.length).map
          (fun (j : ℕ) => delay * 2 ^ j) := by
  intro retries
  induction retries with
  | zero =>
    intro delay attempt
    cases hf : fn attempt with
    | ok v => rw [withRetry_of_ok fn 0 delay attempt v hf]; rfl
    | error e => rw [withRetry_zero_error fn delay attempt e hf]; rfl
  | succ r ih =>
    intro delay attempt
    cases hf : fn attempt with
    | ok v => rw [withRetry_of_ok fn (r + 1) delay attempt v hf]; rfl
    | error e =>
      cases hre : retryable e with
      | false => rw [withRetry_succ_error_false fn r delay attempt e hf hre]; rfl
      | true =>
        rw [withRetry_succ_error_true fn r delay attempt e hf hre]
        simp only [List.length_cons]
        rw [List.range_succ_eq_map, List.map_cons, List.map_map]
        refine congrArg₂ List.cons ?_ ?_
        · simp
        · rw [ih (delay * 2) (attempt + 1)]
          simp only [List.length_map, List.length_range]
          apply List.map_congr_left
          intro j _
          simp only [Function.comp_apply, Nat.succ_eq_add_one, pow_succ]
          ring

lemma withRetry_delays_length {T : Type} (fn : ℕ → Except ApiError T) :
    ∀ (retries : ℕ) (delay : ℚ) (attempt : ℕ),
      (withRetry fn retries delay attempt).2.length ≤ retries := by
  intro retries
  induction retries with
  | zero =>
    intro delay attempt
    cases hf : fn attempt with
    | ok v => rw [withRetry_of_ok fn 0 delay attempt v hf]; simp
    | error e => rw [withRetry_zero_error fn delay attempt e hf]; simp
  | succ r ih =>
    intro delay attempt
    cases hf : fn attempt with
    | ok v => simp [withRetry_of_ok fn (r + 1) delay attempt v hf]
    | error e =>
      cases hre : retryable e with
      | false => simp [withRetry_succ_error_false fn r delay attempt e hf hre]
      | true =>
        rw [withRetry_succ_error_true fn r delay attempt e hf hre]
        simp only [List.length_cons]
        exact Nat.succ_le_succ (ih (delay * 2) (attempt + 1))

lemma toggleInv_preserved (id : ℤ) (l : List ℤ) (h : toggleInv l) :
    toggleInv (handleToggleSelect id l) := by
  obtain ⟨hlen, hnd, hsort⟩ := h
  unfold handleToggleSelect
  split
  · refine ⟨le_trans (List.length_filter_le _ _) hlen, hnd.filter _, hsort.filter _⟩
  · split
    · exact ⟨by simp, by simp, by simp⟩
    · rename_i hel hlt
      have hperm := List.perm_insertionSort (· ≤ ·) (l ++ [id])
      refine ⟨?_, ?_, List.sorted_insertionSort (· ≤ ·) (l ++ [id])⟩
      · rw [hperm.length_eq]
        simp only [List.length_append, List.length_singleton]
        omega
      · apply hperm.nodup_iff.mpr
        simp [List.nodup_append, hnd, hel]

lemma toggleInv_foldl (ids : List ℤ) :
    ∀ l : List ℤ, toggleInv l →
      toggleInv (ids.foldl (fun st i => handleToggleSelect i st) l) := by
  induction ids with
  | nil => intro l h; exact h
  | cons i rest ih =>
    intro l h
    exact ih _ (toggleInv_preserved i l h)

lemma segment_error (v : Video) (mode : Mode) (cfg : SegConfig) (e : DecodeError)
    (h : scanFrames v (sampleTimes v.duration cfg.samplingInterval) = .error e) :
    segment v mode cfg = .error e := by
  simp only [segment, h]

lemma segment_adaptive_ok (v : Video) (cfg : SegConfig) (tfs : List (ℚ × Frame))
    (h : scanFrames v (sampleTimes v.duration cfg.samplingInterval) = .ok tfs) :
    segment v .adaptive cfg =
      .ok ⟨mkScenes v 1 (adaptiveWindows cfg v.duration (mkDiffs tfs)), mkDiffs tfs⟩ := by
  simp only [segment, h]

lemma segment_fixed_ok (v : Video) (cfg : SegConfig) (D : ℚ) (tfs : List (ℚ × Frame))
    (h : scanFrames v (sampleTimes v.duration cfg.samplingInterval) = .ok tfs) :
    segment v (.fixed D) cfg =
      .ok ⟨mkScenes v 1 (fixedWindows D v.duration cfg.minRemainder), mkDiffs tfs⟩ := by
  simp only [segment, h]

lemma adaptiveBoundaries_pairwise (cfg : SegConfig) (d : ℚ) (diffs : List FrameDiff)
    (h : (diffs.map (fun fd => fd.timestamp)).Pairwise (· < ·)) :
    (adaptiveBoundaries cfg d diffs).Pairwise (· < ·) := by
  unfold adaptiveBoundaries
  refine List.Pairwise.sublist (List.filter_sublist _) ?_
  refine List.Pairwise.sublist (mergeClose_sublist _ _) ?_
  unfold candidates
  exact List.Pairwise.sublist ((List.filter_sublist _).map _) h

lemma adaptiveBoundaries_mem (cfg : SegConfig) (d : ℚ) (diffs : List FrameDiff) :
    ∀ t ∈ adaptiveBoundaries cfg d diffs, 0 < t ∧ t < d := by
  intro t ht
  unfold adaptiveBoundaries at ht
  rw [List.mem_filter] at ht
  have := ht.2
  simp only [Bool.and_eq_true, decide_eq_true_eq] at this
  exact this

lemma windows_scenes_spec (v : Video) (d : ℚ) (bs : List ℚ)
    (hpw : bs.Pairwise (· < ·)) (hmem : ∀ b ∈ bs, 0 < b ∧ b < d) (hd : 0 < d) :
    mkScenes v 1 (windows 0 bs d) ≠ [] ∧
    ((mkScenes v 1 (windows 0 bs d)).map Scene.startTime).head? = some 0 ∧
    ((mkScenes v 1 (windows 0 bs d)).map Scene.endTime).getLast? = some d ∧
    (mkScenes v 1 (windows 0 bs d)).Chain' (fun x y => x.endTime = y.startTime) ∧
    (mkScenes v 1 (windows 0 bs d)).Chain' (fun x y => x.startTime < y.startTime) ∧
    ∀ sc ∈ mkScenes v 1 (windows 0 bs d), sc.startTime < sc.endTime := by
  have htimes := mkScenes_times v (windows 0 bs d) 1
  have hstart : (mkScenes v 1 (windows 0 bs d)).map Scene.startTime =
      (windows 0 bs d).map Prod.fst := by
    conv_rhs => rw [← htimes]
    rw [List.map_map]
    apply List.map_congr_left
    intro sc _
    rfl
  have hend : (mkScenes v 1 (windows 0 bs d)).map Scene.endTime =
      (windows 0 bs d).map Prod.snd := by
    conv_rhs => rw [← htimes]
    rw [List.map_map]
    apply List.map_congr_left
    intro sc _
    rfl
  refine ⟨?_, ?_, ?_, ?_, ?_, ?_⟩
  · apply List.length_pos_iff_ne_nil.mp
    rw [mkScenes_length, windows_length]
    omega
  · rw [hstart, List.head?_map, windows_head_fst]
  · rw [hend, List.getLast?_map, windows_last_snd]
  · have hchain := windows_chain_contig 0 d bs
    rw [← htimes] at hchain
    exact (List.chain'_map _).mp hchain
  · have hchain := windows_chain_fst 0 d bs hpw (fun b hb => (hmem b hb).1)
    rw [← htimes] at hchain
    exact (List.chain'_map (fun (sc : Scene) => (sc.startTime, sc.endTime))).mp hchain
  · intro sc hsc
    have hscw : (sc.startTime, sc.endTime) ∈ windows 0 bs d := by
      rw [← htimes]
      exact List.mem_map_of_mem _ hsc
    exact windows_pos 0 d bs hpw hmem hd _ hscw

lemma windows_zip (a d : ℚ) :
    ∀ bs : List ℚ, windows a bs d = (a :: bs).zip (bs ++ [d]) := by
  intro bs
  induction bs generalizing a with
  | nil => rfl
  | cons b t ih => simp [windows, ih b]

lemma zero_cons_interior (m : ℕ) (D : ℚ) :
    (0 : ℚ) :: (List.range m).map (fun (i : ℕ) => ((i : ℚ) + 1) * D) =
      (List.range (m + 1)).map (fun (i : ℕ) => (i : ℚ) * D) := by
  rw [List.range_succ_eq_map, List.map_cons, List.map_map]
  refine congrArg₂ List.cons ?_ ?_
  · simp
  · apply List.map_congr_left
    intro j _
    simp only [Function.comp_apply]
    push_cast
    ring

/-- C4: in adaptive mode, merging collapses candidate boundaries that are
closer together than the minimum scene length: the merged output is a
subsequence of the candidates, keeps the earliest timestamp of the list,
keeps the earlier of any two too-close candidates, and no two output
boundaries are closer than the minimum scene length. -/
theorem c4_boundary_merging (minLen : ℚ) (ts : List ℚ) (hm : 0 ≤ minLen) :
    (mergeClose minLen ts).Pairwise (fun a b => minLen ≤ b - a) ∧
    List.Sublist (mergeClose minLen ts) ts ∧
    (∀ (t : ℚ) (rest : List ℚ), ts = t :: rest →
      (mergeClose minLen ts).head? = some t) ∧
    (∀ t1 t2 : ℚ, t2 - t1 < minLen → mergeClose minLen [t1, t2] = [t1]) := by
  refine ⟨mergeClose_pairwise minLen hm ts, mergeClose_sublist minLen ts, ?_, ?_⟩
  · intro t rest h
    subst h
    rfl
  · intro t1 t2 h
    simp [mergeClose, mergeGo, h]

/-- Witness for C4 at minimum scene length 1 and candidates 0, 1/2, 2. -/
theorem c4_boundary_merging_witness :
    (mergeClose 1 [0, 1 / 2, 2]).Pairwise (fun a b => (1 : ℚ) ≤ b - a) ∧
    List.Sublist (mergeClose 1 [0, 1 / 2, 2]) [0, 1 / 2, 2] ∧
    (∀ (t : ℚ) (rest : List ℚ), ([0, 1 / 2, 2] : List ℚ) = t :: rest →
      (mergeClose 1 [0, 1 / 2, 2]).head? = some t) ∧
    (∀ t1 t2 : ℚ, t2 - t1 < 1 → mergeClose 1 [t1, t2] = [t1]) :=
  c4_boundary_merging 1 [0, 1 / 2, 2] (by norm_num)

/-- C9: the scene-selection toggle of `App.tsx` keeps the selected-ids list
short, duplicate-free and sorted, and behaves as remove / replace / insert
according to the current selection. -/
theorem c9_toggle_select (ids : List ℤ) (id : ℤ) (prev : List ℤ) :
    ((ids.foldl (fun st i => handleToggleSelect i st) []).length ≤ 2 ∧
      (ids.foldl (fun st i => handleToggleSelect i st) []).Nodup ∧
      (ids.foldl (fun st i => handleToggleSelect i st) []).Sorted (· ≤ ·)) ∧
    (id ∈ prev → ∀ x : ℤ, x ∈ handleToggleSelect id prev ↔ x ∈ prev ∧ x ≠ id) ∧
    (id ∉ prev → 2 ≤ prev.length → handleToggleSelect id prev = [id]) ∧
    (id ∉ prev → prev.length < 2 →
      ∀ x : ℤ, x ∈ handleToggleSelect id prev ↔ x ∈ prev ∨ x = id) := by
  refine ⟨toggleInv_foldl ids [] ⟨by simp, by simp, by simp⟩, ?_, ?_, ?_⟩
  · intro hmem x
    unfold handleToggleSelect
    rw [if_pos hmem]
    simp [List.mem_filter]
  · intro hmem hlen
    unfold handleToggleSelect
    rw [if_neg hmem, if_pos hlen]
  · intro hmem hlen x
    unfold handleToggleSelect
    rw [if_neg hmem, if_neg (by omega)]
    rw [(List.perm_insertionSort (· ≤ ·) (prev ++ [id])).mem_iff]
    simp

/-- Witness for C9: toggling a fresh id with two ids selected replaces the
whole selection. -/
theorem c9_toggle_select_witness : handleToggleSelect 5 [1, 2] = [5] :=
  (c9_toggle_select [] 5 [1, 2]).2.2.1 (by decide) (by decide)

/-- C10: `withRetry` returns a successful result unchanged, rethrows
non-retryable errors at once with no retry, waits at most `retries` times,
doubles the delay on each successive retry, and defaults to 3 retries with
a 2000 ms base delay. -/
theorem c10_withRetry_behavior {T : Type} (fn : ℕ → Except ApiError T)
    (retries : ℕ) (delay : ℚ) :
    (∀ v : T, fn 0 = .ok v → withRetry fn retries delay 0 = (.ok v, [])) ∧
    (∀ e : ApiError, fn 0 = .error e → retryable e = false →
      withRetry fn retries delay 0 = (.error e, [])) ∧
    (withRetry fn retries delay 0).2.length ≤ retries ∧
    (withRetry fn retries delay 0).2 =
      (List.range ((withRetry fn retries delay 0).2.length)).map
        (fun (j : ℕ) => delay * 2 ^ j) ∧
    withRetryDefault fn = withRetry fn 3 2000 0 := by
  refine ⟨?_, ?_, withRetry_delays_length fn retries delay 0,
    withRetry_delays fn retries delay 0, rfl⟩
  · intro v hf
    exact withRetry_of_ok fn retries delay 0 v hf
  · intro e hf hre
    cases retries with
    | zero => exact withRetry_zero_error fn delay 0 e hf
    | succ r => exact withRetry_succ_error_false fn r delay 0 e hf hre

/-- Witness for C10: a thunk that succeeds at once is returned unchanged
with no delay. -/
theorem c10_withRetry_behavior_witness :
    withRetry (fun _ => (.ok 42 : Except ApiError ℕ)) 3 2000 0 = (.ok 42, []) :=
  (c10_withRetry_behavior (fun _ => (.ok 42 : Except ApiError ℕ)) 3 2000).1 42 rfl

lemma toNat_floor_cast (D L : ℚ) (hD : 0 < D) (hL : 0 ≤ L) :
    (((⌊L / D⌋).toNat : ℤ) : ℚ) = ((⌊L / D⌋ : ℤ) : ℚ) := by
  have h0 : (0 : ℤ) ≤ ⌊L / D⌋ := Int.floor_nonneg.mpr (by positivity)
  exact_mod_cast congrArg (fun (z : ℤ) => (z : ℚ)) (Int.toNat_of_nonneg h0)

lemma toNat_floor_mul_le (D L : ℚ) (hD : 0 < D) (hL : 0 ≤ L) :
    (((⌊L / D⌋).toNat : ℕ) : ℚ) * D ≤ L := by
  have h1 : (((⌊L / D⌋).toNat : ℕ) : ℚ) = ((⌊L / D⌋ : ℤ) : ℚ) := by
    exact_mod_cast toNat_floor_cast D L hD hL
  have h2 : ((⌊L / D⌋ : ℤ) : ℚ) ≤ L / D := Int.floor_le _
  rw [h1]
  calc ((⌊L / D⌋ : ℤ) : ℚ) * D ≤ (L / D) * D := by nlinarith
    _ = L := div_mul_cancel₀ L (ne_of_gt hD)

/-- C3: fixed-duration slicing with segment length `D` on a video of length
`L` produces the windows `[0,D), [D,2D), ...` with the last window
truncated at `L`; the window count is `⌈L/D⌉` unless the final remainder is
below the minimum threshold, in which case the remainder merges into the
prior window and the count is `⌊L/D⌋`; no window is zero-length. -/
theorem c3_fixed_slicing (D L minRem : ℚ) (k m : ℕ)
    (hD : 0 < D) (hmr : 0 < minRem) (hmrL : minRem ≤ L)
    (hk : k = (⌊L / D⌋).toNat)
    (hm : m = if L - (k : ℚ) * D < minRem then k - 1 else k) :
    (fixedWindows D L minRem).length = m + 1 ∧
    (L - (k : ℚ) * D < minRem → (fixedWindows D L minRem).length = (⌊L / D⌋).toNat) ∧
    (minRem ≤ L - (k : ℚ) * D → (fixedWindows D L minRem).length = (⌈L / D⌉).toNat) ∧
    (∀ w ∈ fixedWindows D L minRem, w.1 < w.2) ∧
    (∀ i : ℕ, i < m →
      (fixedWindows D L minRem)[i]? = some ((i : ℚ) * D, ((i : ℚ) + 1) * D)) ∧
    (fixedWindows D L minRem)[m]? = some ((m : ℚ) * D, L) := by
  have hL : 0 < L := lt_of_lt_of_le hmr hmrL
  have hilen : (fixedInterior D L minRem).length = m := by
    subst hk
    subst hm
    simp [fixedInterior]
  have hlen : (fixedWindows D L minRem).length = m + 1 := by
    rw [fixedWindows, windows_length, hilen]
  have hkD : (k : ℚ) * D ≤ L := by
    subst hk
    exact toNat_floor_mul_le D L hD hL.le
  have hk1 : L - (k : ℚ) * D < minRem → 1 ≤ k := by
    intro hrem
    by_contra hc
    have hk0 : k = 0 := by omega
    rw [hk0] at hrem
    simp at hrem
    linarith
  refine ⟨hlen, ?_, ?_, ?_, ?_, ?_⟩
  · intro hrem
    rw [hlen, ← hk]
    have h1 := hk1 hrem
    rw [hm, if_pos hrem]
    omega
  · intro hge
    rw [hlen, hm, if_neg (not_lt.mpr hge)]
    have hkDlt : (k : ℚ) * D < L := by linarith
    have hfk : ((k : ℤ) : ℚ) = ((⌊L / D⌋ : ℤ) : ℚ) := by
      rw [hk]
      exact toNat_floor_cast D L hD hL.le
    have hflo : L / D < (k : ℚ) + 1 := by
      have := Int.lt_floor_add_one (L / D)
      push_cast at hfk ⊢
      linarith [hfk ▸ this]
    have hcl : (k : ℚ) < L / D := by
      rw [lt_div_iff₀ hD]
      linarith
    have hceil : ⌈L / D⌉ = (k : ℤ) + 1 := by
      rw [Int.ceil_eq_iff]
      constructor
      · push_cast
        linarith
      · push_cast
        linarith
    rw [hceil]
    omega
  · intro w hw
    rw [fixedWindows] at hw
    exact windows_pos 0 L (fixedInterior D L minRem)
      (fixedInterior_pairwise D L minRem hD)
      (fixedInterior_mem D L minRem hD hmr hL) hL w hw
  · intro i hi
    rw [fixedWindows, windows_zip]
    have hint : fixedInterior D L minRem =
        (List.range m).map (fun (j : ℕ) => ((j : ℚ) + 1) * D) := by
      subst hk
      subst hm
      rfl
    rw [hint, zero_cons_interior, zip_getElem?_eq]
    have h1 : ((List.range (m + 1)).map (fun (j : ℕ) => (j : ℚ) * D))[i]? =
        some ((i : ℚ) * D) := by
      rw [List.getElem?_map]
      simp [List.getElem?_range, Nat.lt_succ_of_lt hi]
    have h2 : (((List.range m).map (fun (j : ℕ) => ((j : ℚ) + 1) * D)) ++ [L])[i]? =
        some (((i : ℚ) + 1) * D) := by
      rw [List.getElem?_append, if_pos (by simpa using hi), List.getElem?_map]
      simp [List.getElem?_range, hi]
    rw [h1, h2]
    rfl
  · rw [fixedWindows, windows_zip]
    have hint : fixedInterior D L minRem =
        (List.range m).map (fun (j : ℕ) => ((j : ℚ) + 1) * D) := by
      subst hk
      subst hm
      rfl
    rw [hint, zero_cons_interior, zip_getElem?_eq]
    have h1 : ((List.range (m + 1)).map (fun (j : ℕ) => (j : ℚ) * D))[m]? =
        some ((m : ℚ) * D) := by
      rw [List.getElem?_map]
      simp [List.getElem?_range, Nat.lt_succ_self]
    have h2 : (((List.range m).map (fun (j : ℕ) => ((j : ℚ) + 1) * D)) ++ [L])[m]? =
        some L := by
      rw [List.getElem?_append_right (by simp)]
      simp
    rw [h1, h2]
    rfl

/-- Witness for C3 at D = 3, L = 10, minRem = 1/2: remainder 1 is kept, so
the count is the ceiling, 4. -/
theorem c3_fixed_slicing_witness :
    (fixedWindows 3 10 (1 / 2)).length = 3 + 1 ∧
    ((10 : ℚ) - (3 : ℕ) * 3 < 1 / 2 → (fixedWindows 3 10 (1 / 2)).length = (⌊(10 : ℚ) / 3⌋).toNat) ∧
    ((1 : ℚ) / 2 ≤ 10 - (3 : ℕ) * 3 → (fixedWindows 3 10 (1 / 2)).length = (⌈(10 : ℚ) / 3⌉).toNat) ∧
    (∀ w ∈ fixedWindows 3 10 (1 / 2), w.1 < w.2) ∧
    (∀ i : ℕ, i < 3 →
      (fixedWindows 3 10 (1 / 2))[i]? = some ((i : ℚ) * 3, ((i : ℚ) + 1) * 3)) ∧
    (fixedWindows 3 10 (1 / 2))[3]? = some (((3 : ℕ) : ℚ) * 3, 10) :=
  c3_fixed_slicing 3 10 (1 / 2) 3 3 (by norm_num) (by norm_num) (by norm_num)
    (by norm_num; rfl) (by norm_num)

lemma sampleTimes_const_eval :
    sampleTimes constVideo.duration testCfg.samplingInterval = [0, 2, 4] := by
  have h : (⌈constVideo.duration / testCfg.samplingInterval⌉) = 2 := by
    norm_num [constVideo, testCfg]
  unfold sampleTimes sampleCount
  rw [h]
  show List.map _ (List.range 3) = _
  rw [show (3 : ℕ) = 2 + 1 from rfl, List.range_succ, List.range_succ,
    List.range_succ, List.range_zero]
  simp only [List.nil_append, List.cons_append, List.map_cons, List.map_nil]
  norm_num [min_def, constVideo, testCfg]

lemma scanFrames_const_eval :
    scanFrames constVideo [0, 2, 4] =
      .ok [(0, ⟨[0]⟩), (2, ⟨[0]⟩), (4, ⟨[0]⟩)] := rfl

lemma mkDiffs_const_eval :
    mkDiffs [((0 : ℚ), (⟨[0]⟩ : Frame)), (2, ⟨[0]⟩), (4, ⟨[0]⟩)] =
      [⟨2, 0, 1⟩, ⟨4, 0, 2⟩] := by
  simp [mkDiffs, diffLoop, score_self]

lemma candidates_const_eval :
    candidates testCfg [⟨2, 0, 1⟩, ⟨4, 0, 2⟩] = [] := by
  have hmed : median [(0 : ℚ), 0] = 0 := rfl
  simp only [candidates, List.map_cons, List.map_nil, hmed]
  simp only [testCfg]
  norm_num

lemma adaptiveWindows_const_eval :
    adaptiveWindows testCfg 4 [⟨2, 0, 1⟩, ⟨4, 0, 2⟩] = [(0, 4)] := by
  simp [adaptiveWindows, adaptiveBoundaries, candidates_const_eval, mergeClose, windows]

lemma mkScenes_const_eval :
    mkScenes constVideo 1 [((0 : ℚ), (4 : ℚ))] = [⟨1, 0, 4, "thumb"⟩] := rfl

lemma segment_const_eval :
    segment constVideo Mode.adaptive testCfg =
      .ok ⟨[⟨1, 0, 4, "thumb"⟩], [⟨2, 0, 1⟩, ⟨4, 0, 2⟩]⟩ := by
  simp only [segment, sampleTimes_const_eval, scanFrames_const_eval, mkDiffs_const_eval]
  rw [show constVideo.duration = (4 : ℚ) from rfl, adaptiveWindows_const_eval,
    mkScenes_const_eval]

/-- C1: a successful segmentation (either mode) returns a non-empty scene
list starting at 0, ending at the duration, ordered by start time, with
every scene non-degenerate and each scene's end equal to the next scene's
start (a contiguous partition of the video, no gaps, no overlaps). -/
theorem c1_scene_partition (v : Video) (mode : Mode) (cfg : SegConfig)
    (r : SegmentationResult)
    (hd : 0 < v.duration) (hs : 0 < cfg.samplingInterval)
    (hmr : 0 < cfg.minRemainder) (hmode : modeValid mode)
    (hseg : segment v mode cfg = .ok r) :
    r.scenes ≠ [] ∧
    (r.scenes.map Scene.startTime).head? = some 0 ∧
    (r.scenes.map Scene.endTime).getLast? = some v.duration ∧
    r.scenes.Chain' (fun x y => x.endTime = y.startTime) ∧
    r.scenes.Chain' (fun x y => x.startTime < y.startTime) ∧
    (∀ sc ∈ r.scenes, sc.startTime < sc.endTime) := by
  cases hscan : scanFrames v (sampleTimes v.duration cfg.samplingInterval) with
  | error e =>
    rw [segment_error v mode cfg e hscan] at hseg
    cases hseg
  | ok tfs =>
    cases mode with
    | adaptive =>
      rw [segment_adaptive_ok v cfg tfs hscan] at hseg
      injection hseg with h
      subst h
      have hstamps : (mkDiffs tfs).map (fun fd => fd.timestamp) =
          (sampleTimes v.duration cfg.samplingInterval).tail := by
        rw [mkDiffs_timestamps, scanFrames_ok_fst v hscan]
      have hpw_t : ((mkDiffs tfs).map (fun fd => fd.timestamp)).Pairwise (· < ·) := by
        rw [hstamps]
        exact (sampleTimes_pairwise _ _ hd hs).sublist (List.tail_sublist _)
      exact windows_scenes_spec v v.duration _
        (adaptiveBoundaries_pairwise cfg v.duration (mkDiffs tfs) hpw_t)
        (adaptiveBoundaries_mem cfg v.duration (mkDiffs tfs)) hd
    | fixed D =>
      rw [segment_fixed_ok v cfg D tfs hscan] at hseg
      injection hseg with h
      subst h
      have hD : 0 < D := hmode
      exact windows_scenes_spec v v.duration _
        (fixedInterior_pairwise D v.duration cfg.minRemainder hD)
        (fixedInterior_mem D v.duration cfg.minRemainder hD hmr hd) hd

/-- Witness for C1 on a concrete 4-second constant video in adaptive mode. -/
theorem c1_scene_partition_witness :
    ([⟨1, 0, 4, "thumb"⟩] : List Scene) ≠ [] ∧
    (([⟨1, 0, 4, "thumb"⟩] : List Scene).map Scene.startTime).head? = some 0 ∧
    (([⟨1, 0, 4, "thumb"⟩] : List Scene).map Scene.endTime).getLast? =
      some constVideo.duration ∧
    ([⟨1, 0, 4, "thumb"⟩] : List Scene).Chain' (fun x y => x.endTime = y.startTime) ∧
    ([⟨1, 0, 4, "thumb"⟩] : List Scene).Chain' (fun x y => x.startTime < y.startTime) ∧
    (∀ sc ∈ ([⟨1, 0, 4, "thumb"⟩] : List Scene), sc.startTime < sc.endTime) :=
  c1_scene_partition constVideo Mode.adaptive testCfg
    ⟨[⟨1, 0, 4, "thumb"⟩], [⟨2, 0, 1⟩, ⟨4, 0, 2⟩]⟩
    (by norm_num [constVideo]) (by norm_num [testCfg]) (by norm_num [testCfg])
    trivial segment_const_eval

lemma candidates_of_zero_scores (cfg : SegConfig) (diffs : List FrameDiff)
    (hz : ∀ fd ∈ diffs, fd.diffScore = 0) (hm : 0 ≤ cfg.margin) :
    candidates cfg diffs = [] := by
  unfold candidates
  have hbase : median (diffs.map (fun fd => fd.diffScore)) = 0 := by
    apply median_of_all_zero
    intro x hx
    rw [List.mem_map] at hx
    obtain ⟨fd, hfd, rfl⟩ := hx
    exact hz fd hfd
  simp only [hbase]
  have hfil : diffs.filter
      (fun fd => decide ((0 : ℚ) * cfg.multiplier + cfg.margin < fd.diffScore)) = [] := by
    rw [List.filter_eq_nil_iff]
    intro fd hfd
    rw [hz fd hfd]
    simp only [decide_eq_true_eq, not_lt, zero_mul, zero_add]
    exact hm
  rw [hfil]
  rfl

lemma mkDiffs_const_zero (f : Frame) (ts : List ℚ) :
    ∀ fd ∈ mkDiffs (ts.map (fun t => (t, f))), fd.diffScore = 0 := by
  cases ts with
  | nil => intro fd h; cases h
  | cons t0 rest => intro fd h; exact diffLoop_const_score f 1 rest fd h

/-- C2: in adaptive mode the scene list of a successful segmentation is
never empty, and on a video with zero frame-to-frame change (no candidate
boundary fires) the detector emits exactly one scene spanning the whole
video. -/
theorem c2_coverage_fallback (v : Video) (cfg : SegConfig) (r : SegmentationResult)
    (hseg : segment v .adaptive cfg = .ok r) :
    r.scenes ≠ [] ∧
    (∀ f : Frame, (∀ t, v.frameAt t = .ok f) → 0 ≤ cfg.margin →
      r.scenes.length = 1 ∧
      (r.scenes.map Scene.startTime).head? = some 0 ∧
      (r.scenes.map Scene.endTime).head? = some v.duration) := by
  constructor
  · cases hscan : scanFrames v (sampleTimes v.duration cfg.samplingInterval) with
    | error e =>
      rw [segment_error v .adaptive cfg e hscan] at hseg
      cases hseg
    | ok tfs =>
      rw [segment_adaptive_ok v cfg tfs hscan] at hseg
      injection hseg with h
      subst h
      apply List.length_pos_iff_ne_nil.mp
      show 0 < (mkScenes v 1 (adaptiveWindows cfg v.duration (mkDiffs tfs))).length
      rw [mkScenes_length, adaptiveWindows, windows_length]
      omega
  · intro f hconst hm
    have hscan := scanFrames_const v f hconst (sampleTimes v.duration cfg.samplingInterval)
    rw [segment_adaptive_ok v cfg _ hscan] at hseg
    injection hseg with h
    subst h
    have hz := mkDiffs_const_zero f (sampleTimes v.duration cfg.samplingInterval)
    have hcand := candidates_of_zero_scores cfg _ hz hm
    have hab : adaptiveBoundaries cfg v.duration
        (mkDiffs ((sampleTimes v.duration cfg.samplingInterval).map (fun t => (t, f)))) = [] := by
      unfold adaptiveBoundaries
      rw [hcand]
      rfl
    have hwin : adaptiveWindows cfg v.duration
        (mkDiffs ((sampleTimes v.duration cfg.samplingInterval).map (fun t => (t, f)))) =
        [(0, v.duration)] := by
      rw [adaptiveWindows, hab]
      rfl
    show (mkScenes v 1 _).length = 1 ∧ _ ∧ _
    rw [hwin]
    refine ⟨rfl, rfl, rfl⟩

/-- Witness for C2 on the concrete constant video: exactly one scene
spanning 0 to the duration. -/
theorem c2_coverage_fallback_witness :
    ([⟨1, 0, 4, "thumb"⟩] : List Scene) ≠ [] ∧
    (∀ f : Frame, (∀ t, constVideo.frameAt t = .ok f) → (0 : ℚ) ≤ testCfg.margin →
      ([⟨1, 0, 4, "thumb"⟩] : List Scene).length = 1 ∧
      (([⟨1, 0, 4, "thumb"⟩] : List Scene).map Scene.startTime).head? = some 0 ∧
      (([⟨1, 0, 4, "thumb"⟩] : List Scene).map Scene.endTime).head? =
        some constVideo.duration) :=
  c2_coverage_fallback constVideo testCfg
    ⟨[⟨1, 0, 4, "thumb"⟩], [⟨2, 0, 1⟩, ⟨4, 0, 2⟩]⟩ segment_const_eval

lemma segment_ok_diffs (v : Video) (cfg : SegConfig) (mode : Mode)
    (r : SegmentationResult) (tfs : List (ℚ × Frame))
    (hscan : scanFrames v (sampleTimes v.duration cfg.samplingInterval) = .ok tfs)
    (hseg : segment v mode cfg = .ok r) : r.diffs = mkDiffs tfs := by
  cases mode with
  | adaptive =>
    rw [segment_adaptive_ok v cfg tfs hscan] at hseg
    injection hseg with h
    subst h
    rfl
  | fixed D =>
    rw [segment_fixed_ok v cfg D tfs hscan] at hseg
    injection hseg with h
    subst h
    rfl

/-- C5: the diff timeline of a successful segmentation has one entry per
sampled frame after the first (count `⌈duration/samplingInterval⌉`), is
strictly ordered by timestamp, every score is non-negative, and it is the
same in adaptive and fixed mode (boundaries do not influence it). -/
theorem c5_diff_timeline (v : Video) (cfg : SegConfig) (mode : Mode)
    (r : SegmentationResult)
    (hd : 0 < v.duration) (hs : 0 < cfg.samplingInterval)
    (hseg : segment v mode cfg = .ok r) :
    r.diffs.length = (⌈v.duration / cfg.samplingInterval⌉).toNat ∧
    (r.diffs.map (fun fd => fd.timestamp)).Chain' (· < ·) ∧
    (∀ fd ∈ r.diffs, 0 ≤ fd.diffScore) ∧
    (∀ (mode' : Mode) (r' : SegmentationResult),
      segment v mode' cfg = .ok r' → r'.diffs = r.diffs) := by
  cases hscan : scanFrames v (sampleTimes v.duration cfg.samplingInterval) with
  | error e =>
    rw [segment_error v mode cfg e hscan] at hseg
    cases hseg
  | ok tfs =>
    have hdiffs := segment_ok_diffs v cfg mode r tfs hscan hseg
    have hlen_tfs : tfs.length = sampleCount v.duration cfg.samplingInterval := by
      have := congrArg List.length (scanFrames_ok_fst v hscan)
      simpa [sampleTimes_length] using this
    refine ⟨?_, ?_, ?_, ?_⟩
    · rw [hdiffs, mkDiffs_length, hlen_tfs, sampleCount]
      omega
    · rw [hdiffs, mkDiffs_timestamps, scanFrames_ok_fst v hscan]
      exact (sampleTimes_chain v.duration cfg.samplingInterval hd hs).tail
    · intro fd hfd
      rw [hdiffs] at hfd
      exact mkDiffs_score_nonneg tfs fd hfd
    · intro mode' r' hseg'
      rw [segment_ok_diffs v cfg mode' r' tfs hscan hseg', hdiffs]

/-- Witness for C5 on the concrete constant video in adaptive mode. -/
theorem c5_diff_timeline_witness :
    ([⟨2, 0, 1⟩, ⟨4, 0, 2⟩] : List FrameDiff).length =
      (⌈constVideo.duration / testCfg.samplingInterval⌉).toNat ∧
    (([⟨2, 0, 1⟩, ⟨4, 0, 2⟩] : List FrameDiff).map (fun fd => fd.timestamp)).Chain' (· < ·) ∧
    (∀ fd ∈ ([⟨2, 0, 1⟩, ⟨4, 0, 2⟩] : List FrameDiff), 0 ≤ fd.diffScore) ∧
    (∀ (mode' : Mode) (r' : SegmentationResult),
      segment constVideo mode' testCfg = .ok r' →
        r'.diffs = ([⟨2, 0, 1⟩, ⟨4, 0, 2⟩] : List FrameDiff)) :=
  c5_diff_timeline constVideo testCfg Mode.adaptive
    ⟨[⟨1, 0, 4, "thumb"⟩], [⟨2, 0, 1⟩, ⟨4, 0, 2⟩]⟩
    (by norm_num [constVideo]) (by norm_num [testCfg]) segment_const_eval

/-- C6: the progress values of one segmentation call are strictly
increasing and lie in [0, 100]; the value 100 is reached (as the final
value) exactly when the scan completes successfully — after a fatal decode
failure every emitted value is below 100. -/
theorem c6_progress_monotone (v : Video) (cfg : SegConfig) :
    (segmentProgress v cfg).Chain' (· < ·) ∧
    (∀ p ∈ segmentProgress v cfg, 0 ≤ p ∧ p ≤ 100) ∧
    (∀ tfs : List (ℚ × Frame),
      scanFrames v (sampleTimes v.duration cfg.samplingInterval) = .ok tfs →
      (segmentProgress v cfg).getLast? = some 100) ∧
    (∀ e : DecodeError,
      scanFrames v (sampleTimes v.duration cfg.samplingInterval) = .error e →
      ∀ p ∈ segmentProgress v cfg, p < 100) := by
  have hn : 0 < (sampleTimes v.duration cfg.samplingInterval).length := by
    rw [sampleTimes_length]
    exact sampleCount_pos _ _
  have hn' : (0 : ℚ) < ((sampleTimes v.duration cfg.samplingInterval).length : ℚ) := by
    exact_mod_cast hn
  have heq : segmentProgress v cfg =
      (List.range (okLen v (sampleTimes v.duration cfg.samplingInterval))).map
        (fun (j : ℕ) => ((0 : ℚ) + (j : ℚ) + 1) /
          ((sampleTimes v.duration cfg.samplingInterval).length : ℚ) * 100) := by
    simp only [segmentProgress]
    exact scanProgress_eq v _ _ 0
  have hok_le := okLen_le v (sampleTimes v.duration cfg.samplingInterval)
  refine ⟨?_, ?_, ?_, ?_⟩
  · rw [heq]
    apply List.Pairwise.chain'
    apply List.Pairwise.map
    · intro a b hab
      have ha : (a : ℚ) < (b : ℚ) := by exact_mod_cast hab
      have h1 : ((0 : ℚ) + a + 1) / _ < ((0 : ℚ) + b + 1) / _ :=
        div_lt_div_of_pos_right (by linarith) hn'
      exact mul_lt_mul_of_pos_right h1 (by norm_num)
    · exact List.pairwise_lt_range _
  · intro p hp
    rw [heq] at hp
    rw [List.mem_map] at hp
    obtain ⟨j, hj, rfl⟩ := hp
    rw [List.mem_range] at hj
    have hj1 : (j : ℚ) + 1 ≤ ((sampleTimes v.duration cfg.samplingInterval).length : ℚ) := by
      have : j + 1 ≤ (sampleTimes v.duration cfg.samplingInterval).length := by omega
      exact_mod_cast this
    constructor
    · positivity
    · have hle : ((0 : ℚ) + j + 1) /
          ((sampleTimes v.duration cfg.samplingInterval).length : ℚ) ≤ 1 := by
        rw [div_le_one hn']
        linarith
      nlinarith
  · intro tfs hscan
    rw [heq, okLen_of_ok v hscan]
    obtain ⟨m, hm⟩ : ∃ m, (sampleTimes v.duration cfg.samplingInterval).length = m + 1 :=
      ⟨(sampleTimes v.duration cfg.samplingInterval).length - 1, by omega⟩
    rw [hm, List.range_succ, List.map_append, List.map_cons, List.map_nil,
      List.getLast?_concat]
    have hv : ((0 : ℚ) + (m : ℚ) + 1) = (((m + 1 : ℕ)) : ℚ) := by
      push_cast
      ring
    rw [hv, div_self (by positivity), one_mul]
  · intro e hscan p hp
    have hlt := okLen_of_error v hscan
    rw [heq] at hp
    rw [List.mem_map] at hp
    obtain ⟨j, hj, rfl⟩ := hp
    rw [List.mem_range] at hj
    have hj1 : (j : ℚ) + 1 < ((sampleTimes v.duration cfg.samplingInterval).length : ℚ) := by
      have : j + 1 < (sampleTimes v.duration cfg.samplingInterval).length := by omega
      exact_mod_cast this
    have hone : ((0 : ℚ) + j + 1) /
        ((sampleTimes v.duration cfg.samplingInterval).length : ℚ) < 1 := by
      rw [div_lt_one hn']
      linarith
    nlinarith

/-- Witness for C6 on the concrete constant video: the scan succeeds and
the last progress value is exactly 100. -/
theorem c6_progress_monotone_witness :
    (segmentProgress constVideo testCfg).getLast? = some 100 :=
  (c6_progress_monotone constVideo testCfg).2.2.1
    [(0, ⟨[0]⟩), (2, ⟨[0]⟩), (4, ⟨[0]⟩)]
    (by rw [sampleTimes_const_eval]; exact scanFrames_const_eval)

lemma sampleTimes_bad_eval :
    sampleTimes badVideo.duration testCfg.samplingInterval = [0, 2, 4, 6, 8, 10] := by
  have h : (⌈badVideo.duration / testCfg.samplingInterval⌉) = 5 := by
    norm_num [badVideo, testCfg]
  unfold sampleTimes sampleCount
  rw [h]
  show List.map _ (List.range 6) = _
  rw [show (6 : ℕ) = 5 + 1 from rfl, List.range_succ, List.range_succ, List.range_succ,
    List.range_succ, List.range_succ, List.range_succ, List.range_zero]
  simp only [List.nil_append, List.cons_append, List.map_cons, List.map_nil]
  norm_num [min_def, badVideo, testCfg]

/-- C7: a decode failure during the scan phase makes the whole segmentation
fail with that error and no result; the App error path leaves the stored
scenes and diff timeline unchanged and only records an error status. -/
theorem c7_decode_error_no_partial (v : Video) (mode : Mode) (cfg : SegConfig)
    (st : AppState) (e : DecodeError)
    (hscan : scanFrames v (sampleTimes v.duration cfg.samplingInterval) = .error e) :
    segment v mode cfg = .error e ∧
    (∀ r : SegmentationResult, segment v mode cfg ≠ .ok r) ∧
    (handleDurationSelect st (segment v mode cfg)).scenes = st.scenes ∧
    (handleDurationSelect st (segment v mode cfg)).frameDiffs = st.frameDiffs ∧
    (handleDurationSelect st (segment v mode cfg)).progress.status = .error := by
  have h := segment_error v mode cfg e hscan
  refine ⟨h, ?_, ?_, ?_, ?_⟩
  · intro r hr
    rw [h] at hr
    cases hr
  · rw [h]; rfl
  · rw [h]; rfl
  · rw [h]; rfl

/-- Witness for C7 on the always-failing video: the segmentation returns
the decode error and the App state keeps its scenes and diffs. -/
theorem c7_decode_error_no_partial_witness :
    segment badVideo Mode.adaptive testCfg = .error ⟨0⟩ ∧
    (∀ r : SegmentationResult, segment badVideo Mode.adaptive testCfg ≠ .ok r) ∧
    (handleDurationSelect st0 (segment badVideo Mode.adaptive testCfg)).scenes = st0.scenes ∧
    (handleDurationSelect st0 (segment badVideo Mode.adaptive testCfg)).frameDiffs =
      st0.frameDiffs ∧
    (handleDurationSelect st0 (segment badVideo Mode.adaptive testCfg)).progress.status =
      .error :=
  c7_decode_error_no_partial badVideo Mode.adaptive testCfg st0 ⟨0⟩
    (by rw [sampleTimes_bad_eval]; rfl)

/-- C8: a thumbnail failure is isolated — the scene count matches the
window count whatever the thumbnail outcomes, the affected scene is still
emitted (with the placeholder thumbnail), a sibling whose thumbnail decodes
keeps its own image, and thumbnail outcomes can never make the segmentation
fail (a successful scan always yields a result). -/
theorem c8_thumbnail_isolation (v : Video) (ws : List (ℚ × ℚ)) (i : ℤ) (j : ℕ)
    (a b : ℚ) (u : String) (err : ThumbnailError) :
    (mkScenes v i ws).length = ws.length ∧
    (ws[j]? = some (a, b) →
      (mkScenes v i ws)[j]? = some ⟨i + j, a, b, sceneThumb v a b⟩) ∧
    (v.thumbAt ((a + b) / 2) = .error err → sceneThumb v a b = placeholderThumb) ∧
    (v.thumbAt ((a + b) / 2) = .ok u → sceneThumb v a b = u) ∧
    (∀ (mode : Mode) (cfg : SegConfig) (tfs : List (ℚ × Frame)),
      scanFrames v (sampleTimes v.duration cfg.samplingInterval) = .ok tfs →
      ∃ r : SegmentationResult, segment v mode cfg = .ok r) := by
  refine ⟨mkScenes_length v ws i, ?_, ?_, ?_, ?_⟩
  · intro h
    rw [mkScenes_getElem? v ws i j, h]
    rfl
  · intro h
    unfold sceneThumb
    rw [h]
  · intro h
    unfold sceneThumb
    rw [h]
  · intro mode cfg tfs hscan
    cases mode with
    | adaptive => exact ⟨_, segment_adaptive_ok v cfg tfs hscan⟩
    | fixed D => exact ⟨_, segment_fixed_ok v cfg D tfs hscan⟩

/-- Witness for C8 on the video whose thumbnail decode fails at timestamp 1:
the affected scene degrades to the placeholder thumbnail. -/
theorem c8_thumbnail_isolation_witness :
    sceneThumb flakyVideo 0 2 = placeholderThumb :=
  (c8_thumbnail_isolation flakyVideo [(0, 2), (2, 4)] 1 0 0 2 "ok" ⟨1⟩).2.2.1
    (by norm_num [flakyVideo])

end Scout
